import Mathlib

/-!
# Verification of `typed-query.ts`

Shallow embedding of the typed URL query-parameter library
(`defineQuerySpec` in `src/typed-query.ts`) together with the JavaScript
runtime facilities it leans on: the `Number(string)` conversion, the
`String(value)` conversion, the `in` operator on plain object literals,
and the `URLSearchParams` ordered multi-valued store.

JavaScript numbers are modelled as exact decimal values `m / 10 ^ e`
together with the special values `NaN`, `Infinity` and `-Infinity`.
The modelled fragment of `Number(string)` is the decimal one
(optional sign, digits, decimal point, exponent, `Infinity`, surrounding
white space, the empty string); non-decimal numeric literals
(`0x…`, `0b…`, `0o…`) are outside the modelled fragment and no property
below depends on them.
-/

namespace TypedQuery

/-- A JavaScript number value.  `finite m e` denotes the exact decimal
value `m / 10 ^ e`; `nan`, `posInf`, `negInf` are the special values
`NaN`, `Infinity` and `-Infinity`. -/
inductive JSNum where
  | nan
  | posInf
  | negInf
  | finite (m : Int) (e : Nat)
deriving DecidableEq, Repr

/-- JavaScript `isNaN` on an already-converted number. -/
def JSNum.isNaN : JSNum → Bool
  | .nan => true
  | _ => false

/-- JavaScript strict equality `===` restricted to numbers: finite values
compare by their exact decimal value, the infinities compare to
themselves, and `NaN` is equal to nothing (not even itself). -/
def JSNum.valEq : JSNum → JSNum → Bool
  | .finite m1 e1, .finite m2 e2 => m1 * (10 : Int) ^ e2 == m2 * (10 : Int) ^ e1
  | .posInf, .posInf => true
  | .negInf, .negInf => true
  | _, _ => false

/-- Numeric value of a decimal digit character, `none` otherwise. -/
def charDigit (c : Char) : Option Nat :=
  if c.isDigit then some (c.toNat - 48) else none

/-- Left-to-right accumulation of a digit string into a number;
fails on the first non-digit character. -/
def digitsVal : List Char → Nat → Option Nat
  | [], acc => some acc
  | c :: cs, acc =>
    match charDigit c with
    | some d => digitsVal cs (acc * 10 + d)
    | none => none

/-- Split a character list at the first character satisfying `p`:
returns the part before it and, when found, the part after it. -/
def breakAtChar (p : Char → Bool) : List Char → List Char × Option (List Char)
  | [] => ([], none)
  | c :: cs =>
    if p c then ([], some cs)
    else
      let r := breakAtChar p cs
      (c :: r.1, r.2)

/-- The decimal-point character test. -/
def isDotChar (c : Char) : Bool := c == '.'

/-- The exponent-marker character test. -/
def isExpChar (c : Char) : Bool := c == 'e' || c == 'E'

/-- Parse the mantissa of an ECMAScript decimal literal:
`digits`, `digits.digits`, `digits.` or `.digits`.  Returns the digits
read as an integer together with the number of fractional digits. -/
def parseMantissa (cs : List Char) : Option (Nat × Nat) :=
  let r := breakAtChar isDotChar cs
  match r.2 with
  | none => if r.1.isEmpty then none else (digitsVal r.1 0).map (fun m => (m, 0))
  | some b =>
    if r.1.isEmpty && b.isEmpty then none
    else (digitsVal (r.1 ++ b) 0).map (fun m => (m, b.length))

/-- Strip an optional leading sign; returns whether it was `-`. -/
def parseSign : List Char → Bool × List Char
  | [] => (false, [])
  | c :: cs =>
    if c = '+' then (false, cs)
    else if c = '-' then (true, cs)
    else (false, c :: cs)

/-- Parse the exponent part that follows the `e`/`E` marker:
an optional sign followed by a non-empty digit string. -/
def parseExp (cs : List Char) : Option Int :=
  let s := parseSign cs
  if s.2.isEmpty then none
  else (digitsVal s.2 0).map (fun n => if s.1 then -(n : Int) else (n : Int))

/-- Parse an unsigned ECMAScript decimal literal into
(mantissa digits, fractional-digit count, exponent). -/
def parseDecimal (cs : List Char) : Option (Nat × Nat × Int) :=
  let r := breakAtChar isExpChar cs
  match r.2 with
  | none => (parseMantissa r.1).map (fun p => (p.1, p.2, 0))
  | some ec =>
    match parseMantissa r.1, parseExp ec with
    | some p, some x => some (p.1, p.2, x)
    | _, _ => none

/-- Combine a signed mantissa `m` with `e` fractional digits and a decimal
exponent `x` into the value `m * 10 ^ x / 10 ^ e`. -/
def applyExp (m : Int) (e : Nat) (x : Int) : JSNum :=
  if (e : Int) ≤ x then .finite (m * (10 : Int) ^ (x - (e : Int)).toNat) 0
  else .finite m ((e : Int) - x).toNat

/-- Strip white space from both ends, as `Number(string)` does. -/
def jsTrim (cs : List Char) : List Char :=
  ((cs.dropWhile Char.isWhitespace).reverse.dropWhile Char.isWhitespace).reverse

/-- The characters of the literal `Infinity`. -/
def infinityChars : List Char := ['I', 'n', 'f', 'i', 'n', 'i', 't', 'y']

/-- The JavaScript `Number(string)` conversion, on the decimal fragment:
trimmed empty input converts to `0`, `Infinity`/`+Infinity`/`-Infinity`
to the infinities, a signed decimal literal to its exact decimal value,
and anything else to `NaN`. -/
def jsStringToNumber (s : String) : JSNum :=
  let t := jsTrim s.data
  if t.isEmpty then .finite 0 0
  else
    let sg := parseSign t
    if sg.2 = infinityChars then (if sg.1 then .negInf else .posInf)
    else
      match parseDecimal sg.2 with
      | some mex => applyExp ((if sg.1 then -1 else 1) * (mex.1 : Int)) mex.2.1 mex.2.2
      | none => .nan

/-- The character of a decimal digit. -/
def digitChar (n : Nat) : Char := Char.ofNat (48 + n)

/-- Fuel-driven digit expansion; the fuel only bounds the recursion depth
and any fuel above the number itself yields the same digits. -/
def natToDigitsAux : Nat → Nat → List Char
  | 0, _ => []
  | fuel + 1, n =>
    if n < 10 then [digitChar n]
    else natToDigitsAux fuel (n / 10) ++ [digitChar (n % 10)]

/-- Decimal digit characters of a natural number, most significant first. -/
def natToDigits (n : Nat) : List Char := natToDigitsAux (n + 1) n

/-- Remove trailing decimal zeros from the representation `m / 10 ^ e`,
keeping the value: JavaScript numbers are canonical, so `String(number)`
never prints trailing fractional zeros. -/
def stripZeros : Int → Nat → Int × Nat
  | m, 0 => (m, 0)
  | m, e + 1 => if m % 10 = 0 then stripZeros (m / 10) e else (m, e + 1)

/-- Pad a digit string with leading zeros to length at least `k`. -/
def padZeros (ds : List Char) (k : Nat) : List Char :=
  List.replicate (k - ds.length) '0' ++ ds

/-- Render the decimal value `m / 10 ^ e` (already in lowest decimal
terms) as its plain decimal character string. -/
def renderDigits (m : Int) (e : Nat) : List Char :=
  if e = 0 then (if m < 0 then ['-'] else []) ++ natToDigits m.natAbs
  else
    let ds := padZeros (natToDigits m.natAbs) (e + 1)
    (if m < 0 then ['-'] else []) ++
      (ds.take (ds.length - e) ++ '.' :: ds.drop (ds.length - e))

/-- The JavaScript `String(number)` conversion on the modelled numbers:
`NaN`, the infinities, and finite values in plain decimal positional
format (the canonical decimal representation). -/
def jsNumberToString : JSNum → String
  | .nan => "NaN"
  | .posInf => "Infinity"
  | .negInf => "-Infinity"
  | .finite m e =>
    let p := stripZeros m e
    String.mk (renderDigits p.1 p.2)

example : jsStringToNumber "" = .finite 0 0 := by decide
example : jsStringToNumber "  42 " = .finite 42 0 := by decide
example : jsStringToNumber "-0.5" = .finite (-5) 1 := by decide
example : jsStringToNumber "1.25e2" = .finite 125 0 := by decide
example : jsStringToNumber "1e-2" = .finite 1 2 := by decide
example : jsStringToNumber "NaN" = .nan := by decide
example : jsStringToNumber "Infinity" = .posInf := by decide
example : jsStringToNumber "-Infinity" = .negInf := by decide
example : jsStringToNumber "12a" = .nan := by decide
example : jsStringToNumber "1.2.3" = .nan := by decide
example : jsNumberToString (.finite (-1205) 2) = "-12.05" := by decide
example : jsNumberToString (.finite 500 2) = "5" := by decide
example : jsNumberToString .nan = "NaN" := by decide
example : jsStringToNumber (jsNumberToString (.finite 1205 2)) = .finite 1205 2 := by decide

/-- A JavaScript runtime value, as far as the library can observe one:
the `unknown` argument of `isValidValue` and the `Params[K]` argument of
`set`/`append` are drawn from here. -/
inductive JSValue where
  | str (s : String)
  | num (n : JSNum)
  | bool (b : Bool)
  | nullV
  | undef
deriving DecidableEq, Repr

/-- The JavaScript `String(value)` conversion on the modelled values. -/
def jsToString : JSValue → String
  | .str s => s
  | .num n => jsNumberToString n
  | .bool b => if b then "true" else "false"
  | .nullV => "null"
  | .undef => "undefined"

/-- One specification entry: `String`, `Number`, or a readonly string
array (the three shapes `defineQuerySpec` accepts as validators). -/
inductive Validator where
  | str
  | num
  | enum (values : List String)
deriving DecidableEq, Repr

/-- A query specification: the ordered key/validator pairs of the object
literal passed to `defineQuerySpec`.  Object keys are unique, so a
well-formed specification never lists the same name twice. -/
abbrev Spec := List (String × Validator)

/-- Property read `spec[key]` for own keys of the specification object.
Inherited `Object.prototype` members are not included: reading one of
those from `spec` yields a function value, which matches none of the
`validator === String` / `=== Number` / `Array.isArray` branches, so in
every branch point below it behaves exactly like `none`. -/
def lookupSpec (spec : Spec) (name : String) : Option Validator :=
  (spec.find? (fun p => p.1 == name)).map (fun p => p.2)

/-- The property names a plain object literal inherits from
`Object.prototype`, which the JavaScript `in` operator also reports. -/
def objectProtoKeys : List String :=
  ["constructor", "hasOwnProperty", "isPrototypeOf", "propertyIsEnumerable",
   "toLocaleString", "toString", "valueOf", "__proto__",
   "__defineGetter__", "__defineSetter__", "__lookupGetter__", "__lookupSetter__"]

/-- The JavaScript `in` operator applied to the specification object
literal: true for own keys and also for every property inherited from
`Object.prototype`. -/
def jsIn (spec : Spec) (name : String) : Bool :=
  spec.any (fun p => p.1 == name) || objectProtoKeys.contains name

/-- Model of `isValidName(name)` from `defineQuerySpec`:
`return (name as keyof T) in spec`. -/
def isValidName (spec : Spec) (name : String) : Bool :=
  jsIn spec name

/-- Whether `name` is an own key of the specification (what the
documentation of `isValidName` promises it checks). -/
def isSpecKey (spec : Spec) (name : String) : Bool :=
  spec.any (fun p => p.1 == name)

/-- Model of `isValidValue(key, value)` from `defineQuerySpec`: looks up the
validator for `key` and tests `value` against it; any inherited or
absent `spec[key]` falls through every branch to `false`. -/
def isValidValue (spec : Spec) (key : String) (value : JSValue) : Bool :=
  match lookupSpec spec key with
  | some .str => match value with | .str _ => true | _ => false
  | some .num => match value with | .num n => !n.isNaN | _ => false
  | some (.enum vs) => match value with | .str s => vs.contains s | _ => false
  | none => false

/-- A `URLSearchParams` store: the ordered list of name/value pairs. -/
abbrev Params := List (String × String)

/-- Model of `URLSearchParams.get(k)`: the value of the first pair named `k`,
or `null` when there is none. -/
def paramsGet (p : Params) (k : String) : Option String :=
  (p.find? (fun e => e.1 == k)).map (fun e => e.2)

/-- Model of `URLSearchParams.getAll(k)`: the values of all pairs named `k`,
in store order. -/
def paramsGetAll (p : Params) (k : String) : List String :=
  (p.filter (fun e => e.1 == k)).map (fun e => e.2)

/-- Model of `URLSearchParams.has(k)`. -/
def paramsHas (p : Params) (k : String) : Bool :=
  p.any (fun e => e.1 == k)

/-- Model of `URLSearchParams.delete(k)`: remove every pair named `k`. -/
def paramsDeleteAll (p : Params) (k : String) : Params :=
  p.filter (fun e => !(e.1 == k))

/-- Model of `URLSearchParams.delete(k, v)`: remove every pair named `k` whose
value is `v`. -/
def paramsDeleteValue (p : Params) (k v : String) : Params :=
  p.filter (fun e => !(e.1 == k && e.2 == v))

/-- Model of `URLSearchParams.append(k, v)`: add a pair at the end. -/
def paramsAppend (p : Params) (k v : String) : Params :=
  p ++ [(k, v)]

/-- Model of `URLSearchParams.set(k, v)`: overwrite the first pair named `k` in
place and drop the later ones; append when `k` is absent. -/
def paramsSet : Params → String → String → Params
  | [], k, v => [(k, v)]
  | e :: rest, k, v =>
    if e.1 == k then (k, v) :: paramsDeleteAll rest k
    else e :: paramsSet rest k v

/-- Model of `urlHelpers.set(params, name, value)`:
`params.set(name, String(value))`. -/
def tqSet (p : Params) (name : String) (value : JSValue) : Params :=
  paramsSet p name (jsToString value)

/-- Model of `urlHelpers.append(params, name, value)`:
`params.append(name, String(value))`. -/
def tqAppend (p : Params) (name : String) (value : JSValue) : Params :=
  paramsAppend p name (jsToString value)

/-- Model of `urlHelpers.get(params, name)`: read the first raw value, return
`null` when absent, otherwise decode it according to the validator of
`name`; malformed text decodes to `null`, never to an error. -/
def tqGet (spec : Spec) (p : Params) (name : String) : Option JSValue :=
  match paramsGet p name with
  | none => none
  | some rawValue =>
    match lookupSpec spec name with
    | some .str => some (.str rawValue)
    | some .num =>
      let num := jsStringToNumber rawValue
      if !num.isNaN then some (.num num) else none
    | some (.enum vs) => if vs.contains rawValue then some (.str rawValue) else none
    | none => none

/-- Model of `urlHelpers.getAll(params, name)`: read all raw values and decode
them, keeping for `Number` validators the parses that are not `NaN` and
for array validators the members of the array; unknown validators give
the empty array. -/
def tqGetAll (spec : Spec) (p : Params) (name : String) : List JSValue :=
  let rawValues := paramsGetAll p name
  match lookupSpec spec name with
  | some .str => rawValues.map .str
  | some .num =>
    (((rawValues.map jsStringToNumber).filter (fun num => !num.isNaN)).map .num)
  | some (.enum vs) => (rawValues.filter (fun val => vs.contains val)).map .str
  | none => []

/-- Model of `urlHelpers.has(params, name)`: `params.has(name)`. -/
def tqHas (p : Params) (name : String) : Bool :=
  paramsHas p name

/-- Model of `urlHelpers.delete(params, name, value?)`. -/
def tqDelete (p : Params) (name : String) (value : Option JSValue) : Params :=
  match value with
  | some v => paramsDeleteValue p name (jsToString v)
  | none => paramsDeleteAll p name

/-- Model of `urlHelpers.clearAll(params)`:
`Object.keys(spec).forEach(key => params.delete(key))`. -/
def tqClearAll (spec : Spec) (p : Params) : Params :=
  spec.foldl (fun acc e => paramsDeleteAll acc e.1) p

/-- The decoding rule `get` and `getAll` share, per validator.  It is not
a separate function in the source; it is the specification-side
description that the read operations are proved to refine. -/
def decodeValue (v : Validator) (raw : String) : Option JSValue :=
  match v with
  | .str => some (.str raw)
  | .num =>
    let num := jsStringToNumber raw
    if !num.isNaN then some (.num num) else none
  | .enum vs => if vs.contains raw then some (.str raw) else none

/-- The example specification of the demonstration program. -/
def demoSpec : Spec :=
  [("term", .str),
   ("direction", .enum ["in", "out", "transfer"]),
   ("account", .enum ["savings", "operational", "tax"]),
   ("amount", .num)]

example : tqGet demoSpec [("amount", "42")] "amount" = some (.num (.finite 42 0)) := by decide
example : tqGet demoSpec [("amount", "abc")] "amount" = none := by decide
example : tqGet demoSpec [("direction", "in")] "direction" = some (.str "in") := by decide
example : tqGet demoSpec [("direction", "sideways")] "direction" = none := by decide
example : tqGet demoSpec [] "term" = none := by decide
example :
    tqGetAll demoSpec [("amount", "1"), ("amount", "x"), ("amount", "3")] "amount"
      = [.num (.finite 1 0), .num (.finite 3 0)] := by decide
example :
    tqSet [("amount", "1"), ("term", "a"), ("amount", "2")] "amount" (.num (.finite 9 0))
      = [("amount", "9"), ("term", "a")] := by decide
example : isValidName demoSpec "toString" = true := by decide
example : isValidValue demoSpec "amount" (.num .posInf) = true := by decide
example : isValidValue demoSpec "amount" (.num .nan) = false := by decide

/-! ## Store lemmas -/

lemma paramsGet_set (p : Params) (k v : String) :
    paramsGet (paramsSet p k v) k = some v := by
  induction p with
  | nil => simp [paramsSet, paramsGet]
  | cons e rest ih =>
    by_cases h : e.1 = k
    · simp [paramsSet, paramsGet, h]
    · simpa [paramsSet, paramsGet, h] using ih

lemma paramsGetAll_deleteAll (p : Params) (k : String) :
    paramsGetAll (paramsDeleteAll p k) k = [] := by
  induction p with
  | nil => rfl
  | cons e rest ih =>
    by_cases h : e.1 = k
    · simpa [paramsDeleteAll, paramsGetAll, h] using ih
    · simpa [paramsDeleteAll, paramsGetAll, h] using ih

lemma paramsGetAll_set (p : Params) (k v : String) :
    paramsGetAll (paramsSet p k v) k = [v] := by
  induction p with
  | nil => simp [paramsSet, paramsGetAll]
  | cons e rest ih =>
    by_cases h : e.1 = k
    · simpa [paramsSet, paramsGetAll, h] using paramsGetAll_deleteAll rest k
    · simpa [paramsSet, paramsGetAll, h] using ih

lemma paramsGetAll_append (p : Params) (k v : String) :
    paramsGetAll (paramsAppend p k v) k = paramsGetAll p k ++ [v] := by
  simp [paramsAppend, paramsGetAll]

lemma stringBeq_symm (a b : String) : (a == b) = (b == a) := by
  by_cases h : a = b
  · simp [h]
  · have h' : ¬b = a := fun hh => h hh.symm
    rw [beq_eq_false_iff_ne.mpr h, beq_eq_false_iff_ne.mpr h']

/-- The `clearAll` operation is the same store transformation as filtering out every
pair whose key is one of the specification's own keys. -/
lemma tqClearAll_eq_filter (spec : Spec) (p : Params) :
    tqClearAll spec p = p.filter (fun e => !isSpecKey spec e.1) := by
  induction spec generalizing p with
  | nil => simp [tqClearAll, isSpecKey]
  | cons s rest ih =>
    show tqClearAll rest (paramsDeleteAll p s.1) = _
    rw [ih]
    simp only [paramsDeleteAll, List.filter_filter, isSpecKey, List.any_cons]
    congr 1
    funext e
    rw [Bool.not_or, Bool.and_comm, stringBeq_symm e.1 s.1]

lemma paramsHas_filter_eq_false (p : Params) (k : String) (f : String × String → Bool)
    (hf : ∀ e, e.1 = k → f e = false) :
    paramsHas (p.filter f) k = false := by
  induction p with
  | nil => rfl
  | cons e rest ih =>
    cases hfe : f e with
    | false => simpa [List.filter_cons, hfe] using ih
    | true =>
      have h : ¬e.1 = k := fun h => by simp [hf e h] at hfe
      simpa [List.filter_cons, hfe, paramsHas, h] using ih

lemma paramsGetAll_filter_eq (p : Params) (k : String) (f : String × String → Bool)
    (hf : ∀ e, e.1 = k → f e = true) :
    paramsGetAll (p.filter f) k = paramsGetAll p k := by
  induction p with
  | nil => rfl
  | cons e rest ih =>
    cases hfe : f e with
    | true =>
      by_cases h : e.1 = k
      · simpa [List.filter_cons, hfe, paramsGetAll, h] using ih
      · simpa [List.filter_cons, hfe, paramsGetAll, h] using ih
    | false =>
      have h : ¬e.1 = k := fun h => by simp [hf e h] at hfe
      simpa [List.filter_cons, hfe, paramsGetAll, h] using ih

/-! ## Digit-string lemmas -/

lemma charDigit_digitChar (d : Nat) (h : d < 10) : charDigit (digitChar d) = some d := by
  interval_cases d <;> decide

/-- A character produced by the decimal renderer. -/
def isDigitCh (c : Char) : Prop := ∃ d, d < 10 ∧ c = digitChar d

lemma natToDigitsAux_digits (f : Nat) : ∀ n, ∀ c ∈ natToDigitsAux f n, isDigitCh c := by
  induction f with
  | zero => intro n c hc; simp [natToDigitsAux] at hc
  | succ f ih =>
    intro n c hc
    simp only [natToDigitsAux] at hc
    by_cases h : n < 10
    · simp [h] at hc
      exact ⟨n, h, hc⟩
    · simp [h] at hc
      rcases hc with hc | hc
      · exact ih _ c hc
      · exact ⟨n % 10, Nat.mod_lt _ (by omega), hc⟩

lemma natToDigitsAux_fuel (f : Nat) : ∀ g n, n < f → n < g →
    natToDigitsAux f n = natToDigitsAux g n := by
  induction f with
  | zero => omega
  | succ f ih =>
    intro g n hf hg
    cases g with
    | zero => omega
    | succ g =>
      simp only [natToDigitsAux]
      by_cases h : n < 10
      · simp [h]
      · have hd : n / 10 < n := Nat.div_lt_self (by omega) (by omega)
        simp only [h, if_false]
        rw [ih g (n / 10) (by omega) (by omega)]

lemma natToDigits_lt (n : Nat) (h : n < 10) : natToDigits n = [digitChar n] := by
  simp [natToDigits, natToDigitsAux, h]

lemma natToDigits_ge (n : Nat) (h : ¬n < 10) :
    natToDigits n = natToDigits (n / 10) ++ [digitChar (n % 10)] := by
  have hd : n / 10 < n := Nat.div_lt_self (by omega) (by omega)
  simp only [natToDigits, natToDigitsAux, h, if_false]
  rw [natToDigitsAux_fuel n (n / 10 + 1) (n / 10) (by omega) (by omega)]
  simp only [natToDigitsAux]

lemma natToDigits_digits (n : Nat) : ∀ c ∈ natToDigits n, isDigitCh c :=
  natToDigitsAux_digits (n + 1) n

lemma natToDigits_ne_nil (n : Nat) : natToDigits n ≠ [] := by
  by_cases h : n < 10
  · rw [natToDigits_lt n h]; simp
  · rw [natToDigits_ge n h]; simp

lemma digitsVal_append (xs : List Char) : ∀ ys acc,
    digitsVal (xs ++ ys) acc = (digitsVal xs acc).bind (fun a => digitsVal ys a) := by
  induction xs with
  | nil => intro ys acc; rfl
  | cons c cs ih =>
    intro ys acc
    cases hc : charDigit c with
    | some d => simp [digitsVal, hc, ih]
    | none => simp [digitsVal, hc]

lemma digitsVal_natToDigits (n : Nat) : ∀ acc,
    digitsVal (natToDigits n) acc = some (acc * 10 ^ (natToDigits n).length + n) := by
  induction n using Nat.strong_induction_on with
  | _ n ih =>
    intro acc
    by_cases h : n < 10
    · rw [natToDigits_lt n h]
      simp [digitsVal, charDigit_digitChar n h]
    · have hd : n / 10 < n := Nat.div_lt_self (by omega) (by omega)
      have hm : n % 10 < 10 := Nat.mod_lt _ (by omega)
      rw [natToDigits_ge n h, digitsVal_append, ih (n / 10) hd acc]
      simp only [Option.some_bind, digitsVal, charDigit_digitChar (n % 10) hm,
        List.length_append, List.length_cons, List.length_nil]
      rw [pow_succ]
      have : acc * (10 ^ (natToDigits (n / 10)).length * 10)
          = acc * 10 ^ (natToDigits (n / 10)).length * 10 := by ring
      rw [this]
      generalize acc * 10 ^ (natToDigits (n / 10)).length = t
      congr 1
      omega

lemma digitsVal_replicate_zero (k : Nat) : ∀ acc,
    digitsVal (List.replicate k '0') acc = some (acc * 10 ^ k) := by
  induction k with
  | zero => intro acc; simp [digitsVal]
  | succ k ih =>
    intro acc
    have h0 : charDigit '0' = some 0 := by decide
    rw [List.replicate_succ]
    simp only [digitsVal, h0]
    rw [ih (acc * 10 + 0)]
    congr 1
    ring

lemma digitsVal_padZeros (ds : List Char) (k : Nat) :
    digitsVal (padZeros ds k) 0 = digitsVal ds 0 := by
  rw [padZeros, digitsVal_append, digitsVal_replicate_zero]
  simp

/-! ## Character-class and parser lemmas -/

lemma isDigitCh_props (c : Char) (h : isDigitCh c) :
    c.isWhitespace = false ∧ isDotChar c = false ∧ isExpChar c = false ∧
      c ≠ '+' ∧ c ≠ '-' ∧ c ≠ 'I' := by
  obtain ⟨d, hd, rfl⟩ := h
  interval_cases d <;> exact ⟨by decide, by decide, by decide, by decide, by decide, by decide⟩

lemma padZeros_digits (ds : List Char) (k : Nat) (h : ∀ c ∈ ds, isDigitCh c) :
    ∀ c ∈ padZeros ds k, isDigitCh c := by
  intro c hc
  rw [padZeros, List.mem_append] at hc
  rcases hc with hc | hc
  · rw [List.eq_of_mem_replicate hc]
    exact ⟨0, by omega, by decide⟩
  · exact h c hc

lemma breakAtChar_none (p : Char → Bool) (cs : List Char) (h : ∀ c ∈ cs, p c = false) :
    breakAtChar p cs = (cs, none) := by
  induction cs with
  | nil => rfl
  | cons c rest ih =>
    have hc := h c (by simp)
    simp [breakAtChar, hc, ih (fun x hx => h x (by simp [hx]))]

lemma breakAtChar_split (p : Char → Bool) (A : List Char) (d : Char) (B : List Char)
    (hA : ∀ c ∈ A, p c = false) (hd : p d = true) :
    breakAtChar p (A ++ d :: B) = (A, some B) := by
  induction A with
  | nil => simp [breakAtChar, hd]
  | cons c rest ih =>
    have hc := hA c (by simp)
    simp [breakAtChar, hc, ih (fun x hx => hA x (by simp [hx]))]

lemma dropWhile_eq_self_of_none (p : Char → Bool) (l : List Char)
    (h : ∀ c ∈ l, p c = false) : l.dropWhile p = l := by
  cases l with
  | nil => rfl
  | cons c rest => simp [List.dropWhile, h c (by simp)]

lemma jsTrim_eq_self (cs : List Char) (h : ∀ c ∈ cs, c.isWhitespace = false) :
    jsTrim cs = cs := by
  rw [jsTrim, dropWhile_eq_self_of_none _ _ h, dropWhile_eq_self_of_none, List.reverse_reverse]
  intro c hc
  exact h c (by simpa using hc)

lemma parseSign_not_sign (c : Char) (cs : List Char) (h1 : c ≠ '+') (h2 : c ≠ '-') :
    parseSign (c :: cs) = (false, c :: cs) := by
  simp [parseSign, h1, h2]

lemma parseDecimal_digits (cs : List Char) (hne : cs ≠ [])
    (hdig : ∀ c ∈ cs, isDigitCh c) (n : Nat) (hval : digitsVal cs 0 = some n) :
    parseDecimal cs = some (n, 0, 0) := by
  rw [parseDecimal,
    breakAtChar_none isExpChar cs (fun c hc => (isDigitCh_props c (hdig c hc)).2.2.1)]
  simp only [parseMantissa,
    breakAtChar_none isDotChar cs (fun c hc => (isDigitCh_props c (hdig c hc)).2.1)]
  simp [hne, hval]

lemma parseDecimal_dot (A B : List Char) (hA : A ≠ [])
    (hdA : ∀ c ∈ A, isDigitCh c) (hdB : ∀ c ∈ B, isDigitCh c)
    (n : Nat) (hval : digitsVal (A ++ B) 0 = some n) :
    parseDecimal (A ++ '.' :: B) = some (n, B.length, 0) := by
  have hnotexp : ∀ c ∈ A ++ '.' :: B, isExpChar c = false := by
    intro c hc
    rw [List.mem_append, List.mem_cons] at hc
    rcases hc with hc | hc | hc
    · exact (isDigitCh_props c (hdA c hc)).2.2.1
    · rw [hc]; decide
    · exact (isDigitCh_props c (hdB c hc)).2.2.1
  rw [parseDecimal, breakAtChar_none isExpChar _ hnotexp]
  simp only [parseMantissa,
    breakAtChar_split isDotChar A '.' B
      (fun c hc => (isDigitCh_props c (hdA c hc)).2.1) (by decide)]
  simp [hA, hval]

/-! ## `String(number)` / `Number(string)` round trip -/

lemma jsStringToNumber_signed (neg : Bool) (r : Char) (rtail : List Char)
    (hws : ∀ c ∈ r :: rtail, c.isWhitespace = false)
    (hplus : r ≠ '+') (hminus : r ≠ '-')
    (hinf : r :: rtail ≠ infinityChars)
    (a e : Nat) (hparse : parseDecimal (r :: rtail) = some (a, e, 0)) :
    jsStringToNumber (String.mk ((if neg then ['-'] else []) ++ r :: rtail)) =
      applyExp ((if neg then -1 else 1) * (a : Int)) e 0 := by
  cases neg with
  | true =>
    have hws' : ∀ c ∈ '-' :: r :: rtail, c.isWhitespace = false := by
      intro c hc
      rw [List.mem_cons] at hc
      rcases hc with hc | hc
      · rw [hc]; decide
      · exact hws c hc
    simp only [jsStringToNumber, if_true, List.cons_append, List.nil_append]
    rw [jsTrim_eq_self _ hws']
    simp only [List.isEmpty_cons, Bool.false_eq_true, if_false]
    have hsg : parseSign ('-' :: r :: rtail) = (true, r :: rtail) := by simp [parseSign]
    rw [hsg]
    simp [hinf, hparse]
  | false =>
    simp only [jsStringToNumber, Bool.false_eq_true, if_false, List.nil_append]
    rw [jsTrim_eq_self _ hws]
    simp only [List.isEmpty_cons, Bool.false_eq_true, if_false]
    rw [parseSign_not_sign r rtail hplus hminus]
    simp [hinf, hparse]

lemma applyExp_zero_exp (m : Int) (e : Nat) : applyExp m e 0 = JSNum.finite m e := by
  rw [applyExp]
  by_cases he : e = 0
  · subst he
    norm_num
  · rw [if_neg (by omega)]
    have h : ((e : Int) - 0).toNat = e := by omega
    rw [h]

lemma sign_mul_natAbs (m : Int) :
    (if decide (m < 0) then (-1 : Int) else 1) * (m.natAbs : Int) = m := by
  by_cases hm : m < 0
  · rw [if_pos (by simpa using hm)]
    omega
  · rw [if_neg (by simpa using hm)]
    omega

lemma jsStringToNumber_renderDigits (m : Int) (e : Nat) :
    jsStringToNumber (String.mk (renderDigits m e)) = .finite m e := by
  by_cases he : e = 0
  · subst he
    simp only [renderDigits, if_true]
    have hdig := natToDigits_digits m.natAbs
    obtain ⟨d, ds, hds⟩ : ∃ d ds, natToDigits m.natAbs = d :: ds := by
      cases h : natToDigits m.natAbs with
      | nil => exact absurd h (natToDigits_ne_nil _)
      | cons d ds => exact ⟨d, ds, rfl⟩
    rw [hds] at hdig ⊢
    have hd0 := hdig d (by simp)
    have hprops := isDigitCh_props d hd0
    have hval : digitsVal (d :: ds) 0 = some m.natAbs := by
      have := digitsVal_natToDigits m.natAbs 0
      rw [hds] at this
      simpa using this
    have hinf : d :: ds ≠ infinityChars := by
      intro hcontr
      have : d = 'I' := by
        have := congrArg (fun l => l.head?) hcontr
        simpa [infinityChars] using this
      exact hprops.2.2.2.2.2 this
    have hb : (if m < 0 then ['-'] else []) = (if decide (m < 0) then ['-'] else []) := by
      by_cases hm : m < 0 <;> simp [hm]
    rw [hb]
    rw [jsStringToNumber_signed (decide (m < 0)) d ds
      (fun c hc => (isDigitCh_props c (hdig c hc)).1)
      hprops.2.2.2.1 hprops.2.2.2.2.1 hinf m.natAbs 0
      (parseDecimal_digits _ (by simp) hdig _ hval)]
    rw [applyExp_zero_exp, sign_mul_natAbs]
  · simp only [renderDigits, he, if_false]
    set base := natToDigits m.natAbs with hbase
    set ds := padZeros base (e + 1) with hds
    have hdig : ∀ c ∈ ds, isDigitCh c := padZeros_digits base (e + 1) (natToDigits_digits _)
    have hlen : e + 1 ≤ ds.length := by
      rw [hds, padZeros, List.length_append, List.length_replicate]
      omega
    have hTlen : (ds.take (ds.length - e)).length = ds.length - e := by
      rw [List.length_take]
      omega
    have hDlen : (ds.drop (ds.length - e)).length = e := by
      rw [List.length_drop]
      omega
    obtain ⟨t, T, hT⟩ : ∃ t T, ds.take (ds.length - e) = t :: T := by
      cases h : ds.take (ds.length - e) with
      | nil => rw [h] at hTlen; simp at hTlen; omega
      | cons t T => exact ⟨t, T, rfl⟩
    have hdigT : ∀ c ∈ t :: T, isDigitCh c := by
      intro c hc
      rw [← hT] at hc
      exact hdig c (List.mem_of_mem_take hc)
    have hdigD : ∀ c ∈ ds.drop (ds.length - e), isDigitCh c := by
      intro c hc
      exact hdig c (List.mem_of_mem_drop hc)
    have ht0 := hdigT t (by simp)
    have hprops := isDigitCh_props t ht0
    have hval : digitsVal ((t :: T) ++ ds.drop (ds.length - e)) 0 = some m.natAbs := by
      rw [← hT, List.take_append_drop]
      rw [hds, digitsVal_padZeros, hbase]
      have := digitsVal_natToDigits m.natAbs 0
      simpa using this
    have hws : ∀ c ∈ t :: (T ++ '.' :: ds.drop (ds.length - e)), c.isWhitespace = false := by
      intro c hc
      rw [List.mem_cons, List.mem_append, List.mem_cons] at hc
      rcases hc with hc | hc | hc | hc
      · rw [hc]; exact hprops.1
      · exact (isDigitCh_props c (hdigT c (by simp [hc]))).1
      · rw [hc]; decide
      · exact (isDigitCh_props c (hdigD c hc)).1
    have hinf : t :: (T ++ '.' :: ds.drop (ds.length - e)) ≠ infinityChars := by
      intro hcontr
      have : t = 'I' := by
        have := congrArg (fun l => l.head?) hcontr
        simpa [infinityChars] using this
      exact hprops.2.2.2.2.2 this
    have hparse : parseDecimal (t :: (T ++ '.' :: ds.drop (ds.length - e)))
        = some (m.natAbs, e, 0) := by
      have := parseDecimal_dot (t :: T) (ds.drop (ds.length - e)) (by simp)
        hdigT hdigD m.natAbs hval
      rw [hDlen] at this
      simpa using this
    have hb : (if m < 0 then ['-'] else []) = (if decide (m < 0) then ['-'] else []) := by
      by_cases hm : m < 0 <;> simp [hm]
    rw [hT, hb]
    have hshape : (if decide (m < 0) then ['-'] else []) ++ ((t :: T) ++ '.' :: ds.drop (ds.length - e))
        = (if decide (m < 0) then ['-'] else []) ++ (t :: (T ++ '.' :: ds.drop (ds.length - e))) := by
      simp
    rw [hshape]
    rw [jsStringToNumber_signed (decide (m < 0)) t (T ++ '.' :: ds.drop (ds.length - e))
      hws hprops.2.2.2.1 hprops.2.2.2.2.1 hinf m.natAbs e hparse]
    rw [applyExp_zero_exp, sign_mul_natAbs]

lemma stripZeros_val (e : Nat) : ∀ (m : Int),
    (stripZeros m e).1 * 10 ^ e = m * 10 ^ (stripZeros m e).2 := by
  induction e with
  | zero => intro m; simp [stripZeros]
  | succ e ih =>
    intro m
    by_cases h : m % 10 = 0
    · simp only [stripZeros, h, if_true]
      have h10 : (m / 10) * 10 = m := Int.ediv_mul_cancel (Int.dvd_of_emod_eq_zero h)
      calc (stripZeros (m / 10) e).1 * 10 ^ (e + 1)
          = ((stripZeros (m / 10) e).1 * 10 ^ e) * 10 := by ring
        _ = ((m / 10) * 10 ^ (stripZeros (m / 10) e).2) * 10 := by rw [ih]
        _ = ((m / 10) * 10) * 10 ^ (stripZeros (m / 10) e).2 := by ring
        _ = m * 10 ^ (stripZeros (m / 10) e).2 := by rw [h10]
    · simp [stripZeros, h]

lemma jsNumberString_roundTrip (m : Int) (e : Nat) :
    jsStringToNumber (jsNumberToString (.finite m e))
      = .finite (stripZeros m e).1 (stripZeros m e).2 := by
  simp only [jsNumberToString]
  exact jsStringToNumber_renderDigits _ _

lemma stripZeros_valEq (m : Int) (e : Nat) :
    JSNum.valEq (.finite (stripZeros m e).1 (stripZeros m e).2) (.finite m e) = true := by
  simp only [JSNum.valEq]
  exact beq_iff_eq.mpr (stripZeros_val e m)

/-! ## Decoding lemmas -/

lemma decode_render_num (n : JSNum) (hn : n.isNaN = false) :
    ∃ w : JSNum, decodeValue .num (jsNumberToString n) = some (.num w) ∧
      w.isNaN = false ∧ JSNum.valEq w n = true := by
  cases n with
  | nan => simp [JSNum.isNaN] at hn
  | posInf => exact ⟨.posInf, by decide, by decide, by decide⟩
  | negInf => exact ⟨.negInf, by decide, by decide, by decide⟩
  | finite m e =>
    refine ⟨.finite (stripZeros m e).1 (stripZeros m e).2, ?_, by simp [JSNum.isNaN],
      stripZeros_valEq m e⟩
    simp only [decodeValue]
    rw [jsNumberString_roundTrip]
    simp [JSNum.isNaN]

lemma decode_enum_mem (vs : List String) (s : String) (hs : vs.contains s = true) :
    decodeValue (.enum vs) s = some (.str s) := by
  have hmem : s ∈ vs := by simpa using hs
  simp [decodeValue, hmem]

lemma tqGet_eq_bind (spec : Spec) (p : Params) (name : String) (vd : Validator)
    (hvd : lookupSpec spec name = some vd) :
    tqGet spec p name = (paramsGet p name).bind (decodeValue vd) := by
  cases h : paramsGet p name with
  | none => simp [tqGet, h]
  | some raw =>
    simp only [tqGet, h, hvd, Option.some_bind]
    cases vd <;> rfl

lemma filterMap_decode_str (l : List String) :
    l.filterMap (decodeValue .str) = l.map .str := by
  induction l with
  | nil => rfl
  | cons a l ih => simp [List.filterMap_cons, decodeValue, ih]

lemma filterMap_decode_num (l : List String) :
    l.filterMap (decodeValue .num)
      = ((l.map jsStringToNumber).filter (fun num => !num.isNaN)).map .num := by
  induction l with
  | nil => rfl
  | cons a l ih =>
    cases h : (jsStringToNumber a).isNaN <;>
      simp [List.filterMap_cons, decodeValue, h, ih]

lemma filterMap_decode_enum (vs : List String) (l : List String) :
    l.filterMap (decodeValue (.enum vs))
      = (l.filter (fun val => vs.contains val)).map .str := by
  induction l with
  | nil => rfl
  | cons a l ih =>
    by_cases h : a ∈ vs <;>
      simp [List.filterMap_cons, decodeValue, h, ih]

lemma tqGetAll_eq_filterMap (spec : Spec) (p : Params) (name : String) (vd : Validator)
    (hvd : lookupSpec spec name = some vd) :
    tqGetAll spec p name = (paramsGetAll p name).filterMap (decodeValue vd) := by
  simp only [tqGetAll, hvd]
  cases vd with
  | str => exact (filterMap_decode_str _).symm
  | num => exact (filterMap_decode_num _).symm
  | enum vs => exact (filterMap_decode_enum vs _).symm

/-! ## Claims -/

/-- Claim C1: the claim says `isValidName(candidate)` is true iff `candidate`
equals one of the specification's keys.  The source instead evaluates
`(name as keyof T) in spec`, and the JavaScript `in` operator also reports
properties inherited from `Object.prototype`: on the demonstration
specification, `isValidName("toString")` returns `true` although
`"toString"` is not a key, contradicting the function's own documentation
and its type-predicate annotation. -/
theorem isValidName_accepts_inherited_name :
    isValidName demoSpec "toString" = true ∧ isSpecKey demoSpec "toString" = false := by
  decide

/-- Claim C2: for a parameter of Text or Enumeration kind and any value valid
for that kind, `set` followed by `get` on the same store returns exactly the
value. -/
theorem set_get_roundTrip_text_enum (spec : Spec) (p : Params) (name : String)
    (vd : Validator) (v : JSValue)
    (hvd : lookupSpec spec name = some vd)
    (hkind : vd = .str ∨ ∃ vs, vd = .enum vs)
    (hvalid : isValidValue spec name v = true) :
    tqGet spec (tqSet p name v) name = some v := by
  rw [tqGet_eq_bind spec _ name vd hvd, tqSet, paramsGet_set, Option.some_bind]
  rcases hkind with h | ⟨vs, h⟩ <;> subst h
  · simp only [isValidValue, hvd] at hvalid
    cases v with
    | str s => rfl
    | num n => simp at hvalid
    | bool b => simp at hvalid
    | nullV => simp at hvalid
    | undef => simp at hvalid
  · simp only [isValidValue, hvd] at hvalid
    cases v with
    | str s => exact decode_enum_mem vs s hvalid
    | num n => simp at hvalid
    | bool b => simp at hvalid
    | nullV => simp at hvalid
    | undef => simp at hvalid

theorem set_get_roundTrip_text_enum_witness :
    tqGet demoSpec (tqSet [] "direction" (.str "in")) "direction" = some (.str "in") :=
  set_get_roundTrip_text_enum demoSpec [] "direction" (.enum ["in", "out", "transfer"])
    (.str "in") (by decide) (Or.inr ⟨_, rfl⟩) (by decide)

/-- Claim C3: for a parameter of Numeric kind and any finite numeric value,
`set` followed by `get` returns a number equal (as a JavaScript number) to
the value: encoding to the canonical decimal string and parsing it back
preserves the numeric value. -/
theorem set_get_roundTrip_numeric (spec : Spec) (p : Params) (name : String)
    (m : Int) (e : Nat) (hvd : lookupSpec spec name = some .num) :
    ∃ n : JSNum, tqGet spec (tqSet p name (.num (.finite m e))) name = some (.num n) ∧
      JSNum.valEq n (.finite m e) = true := by
  rw [tqGet_eq_bind spec _ name _ hvd, tqSet, paramsGet_set, Option.some_bind]
  obtain ⟨w, hw, _, heq⟩ := decode_render_num (.finite m e) (by simp [JSNum.isNaN])
  exact ⟨w, hw, heq⟩

theorem set_get_roundTrip_numeric_witness :
    ∃ n : JSNum,
      tqGet demoSpec (tqSet [] "amount" (.num (.finite (-1205) 2))) "amount"
          = some (.num n) ∧
        JSNum.valEq n (.finite (-1205) 2) = true :=
  set_get_roundTrip_numeric demoSpec [] "amount" (-1205) 2 (by decide)

/-- Claim C4: for a name in the specification, `get` depends on the store
only through the first stored value for the name (`paramsGet`), returns
`none` when that is absent, and otherwise decodes it per the parameter's
kind: Text returns the raw string unchanged, Numeric returns `none` exactly
when the parse is `NaN`, Enumeration returns the raw string exactly when it
is a member of the allowed list.  `tqGet` is a total function, so malformed
stored text never raises an error. -/
theorem get_reads_first_and_decodes (spec : Spec) (p : Params) (name : String)
    (vd : Validator) (hvd : lookupSpec spec name = some vd) :
    tqGet spec p name = (paramsGet p name).bind (decodeValue vd) ∧
    (∀ raw, decodeValue Validator.str raw = some (.str raw)) ∧
    (∀ raw, decodeValue Validator.num raw
        = if (jsStringToNumber raw).isNaN then none else some (.num (jsStringToNumber raw))) ∧
    (∀ vs raw, decodeValue (Validator.enum vs) raw
        = if vs.contains raw then some (.str raw) else none) := by
  refine ⟨tqGet_eq_bind spec p name vd hvd, fun raw => rfl, fun raw => ?_, fun vs raw => rfl⟩
  cases h : (jsStringToNumber raw).isNaN <;> simp [decodeValue, h]

theorem get_reads_first_and_decodes_witness :
    tqGet demoSpec [("amount", "abc"), ("amount", "42")] "amount" = none := by
  have h := get_reads_first_and_decodes demoSpec [("amount", "abc"), ("amount", "42")]
    "amount" .num (by decide)
  rw [h.1]
  decide

/-- Claim C5: for a name in the specification, `getAll` returns the ordered
raw value sequence decoded entrywise with failing entries dropped — exactly
a `filterMap` of the per-kind decoder over the raw values — so the result is
an order-preserving subsequence of the decoded entries and its length can be
smaller than the number of raw entries. -/
theorem getAll_decodes_and_drops (spec : Spec) (p : Params) (name : String)
    (vd : Validator) (hvd : lookupSpec spec name = some vd) :
    tqGetAll spec p name = (paramsGetAll p name).filterMap (decodeValue vd) ∧
      (tqGetAll spec p name).length ≤ (paramsGetAll p name).length := by
  refine ⟨tqGetAll_eq_filterMap spec p name vd hvd, ?_⟩
  rw [tqGetAll_eq_filterMap spec p name vd hvd]
  exact List.length_filterMap_le _ _

theorem getAll_decodes_and_drops_witness :
    tqGetAll demoSpec [("amount", "1"), ("amount", "x"), ("amount", "3")] "amount"
        = (paramsGetAll [("amount", "1"), ("amount", "x"), ("amount", "3")] "amount").filterMap
            (decodeValue .num) ∧
      (tqGetAll demoSpec [("amount", "1"), ("amount", "x"), ("amount", "3")] "amount").length
        ≤ (paramsGetAll [("amount", "1"), ("amount", "x"), ("amount", "3")] "amount").length :=
  getAll_decodes_and_drops demoSpec [("amount", "1"), ("amount", "x"), ("amount", "3")]
    "amount" .num (by decide)

/-- Claim C6: for a valid value, `append` adds exactly one decoded entry at
the end of what `getAll` returns (call order preserved), while `set` leaves
`getAll` with exactly that one entry no matter how many were stored
before. -/
theorem append_accumulates_set_collapses (spec : Spec) (p : Params) (name : String)
    (vd : Validator) (v : JSValue)
    (hvd : lookupSpec spec name = some vd)
    (hvalid : isValidValue spec name v = true) :
    ∃ w, decodeValue vd (jsToString v) = some w ∧
      tqGetAll spec (tqAppend p name v) name = tqGetAll spec p name ++ [w] ∧
      tqGetAll spec (tqSet p name v) name = [w] := by
  obtain ⟨w, hw⟩ : ∃ w, decodeValue vd (jsToString v) = some w := by
    cases vd with
    | str =>
      simp only [isValidValue, hvd] at hvalid
      cases v with
      | str s => exact ⟨.str s, rfl⟩
      | num n => simp at hvalid
      | bool b => simp at hvalid
      | nullV => simp at hvalid
      | undef => simp at hvalid
    | num =>
      simp only [isValidValue, hvd] at hvalid
      cases v with
      | num n =>
        have hn : n.isNaN = false := by simpa using hvalid
        obtain ⟨w, hw, -, -⟩ := decode_render_num n hn
        exact ⟨.num w, hw⟩
      | str s => simp at hvalid
      | bool b => simp at hvalid
      | nullV => simp at hvalid
      | undef => simp at hvalid
    | enum vs =>
      simp only [isValidValue, hvd] at hvalid
      cases v with
      | str s => exact ⟨.str s, decode_enum_mem vs s hvalid⟩
      | num n => simp at hvalid
      | bool b => simp at hvalid
      | nullV => simp at hvalid
      | undef => simp at hvalid
  refine ⟨w, hw, ?_, ?_⟩
  · rw [tqGetAll_eq_filterMap spec _ name vd hvd, tqAppend, paramsGetAll_append,
      List.filterMap_append, tqGetAll_eq_filterMap spec p name vd hvd]
    simp [hw]
  · rw [tqGetAll_eq_filterMap spec _ name vd hvd, tqSet, paramsGetAll_set]
    simp [hw]

theorem append_accumulates_set_collapses_witness :
    tqGetAll demoSpec (tqAppend [("direction", "out")] "direction" (.str "in")) "direction"
        = [.str "out", .str "in"] ∧
      tqGetAll demoSpec (tqSet [("direction", "out")] "direction" (.str "in")) "direction"
        = [.str "in"] := by
  obtain ⟨w, hw, h1, h2⟩ := append_accumulates_set_collapses demoSpec [("direction", "out")]
    "direction" (.enum ["in", "out", "transfer"]) (.str "in") (by decide) (by decide)
  have hww : decodeValue (.enum ["in", "out", "transfer"]) (jsToString (.str "in"))
      = some (.str "in") := by decide
  rw [hw] at hww
  injection hww with hwv
  subst hwv
  refine ⟨?_, h2⟩
  rw [h1]
  decide

/-- Claim C7: after `clearAll`, every key named in the specification is
absent from the store, and every entry whose key is not in the
specification keeps its values in their original order. -/
theorem clearAll_removes_spec_keys_only (spec : Spec) (p : Params) (name : String) :
    (isSpecKey spec name = true → tqHas (tqClearAll spec p) name = false) ∧
    (isSpecKey spec name = false → paramsGetAll (tqClearAll spec p) name = paramsGetAll p name) := by
  constructor
  · intro hk
    rw [tqClearAll_eq_filter, tqHas]
    apply paramsHas_filter_eq_false
    intro e he
    simp [he, hk]
  · intro hk
    rw [tqClearAll_eq_filter]
    apply paramsGetAll_filter_eq
    intro e he
    simp [he, hk]

theorem clearAll_removes_spec_keys_only_witness :
    tqHas (tqClearAll demoSpec [("amount", "1"), ("foo", "2")]) "amount" = false ∧
      paramsGetAll (tqClearAll demoSpec [("amount", "1"), ("foo", "2")]) "foo"
        = paramsGetAll [("amount", "1"), ("foo", "2")] "foo" := by
  constructor
  · exact (clearAll_removes_spec_keys_only demoSpec [("amount", "1"), ("foo", "2")]
      "amount").1 (by decide)
  · exact (clearAll_removes_spec_keys_only demoSpec [("amount", "1"), ("foo", "2")]
      "foo").2 (by decide)

/-- Claim C8: for a parameter of Numeric kind, `isValidValue` accepts a
value exactly when it is a number other than `NaN`; in particular both
infinities are accepted and no value of non-numeric runtime type is ever
valid. -/
theorem isValidValue_numeric_iff (spec : Spec) (name : String) (v : JSValue)
    (hvd : lookupSpec spec name = some .num) :
    isValidValue spec name v = true ↔ ∃ n, v = JSValue.num n ∧ n.isNaN = false := by
  simp only [isValidValue, hvd]
  cases v with
  | num n =>
    constructor
    · intro h
      exact ⟨n, rfl, by simpa using h⟩
    · rintro ⟨n', hn', hnan⟩
      injection hn' with h
      subst h
      simp [hnan]
  | str s => simp
  | bool b => simp
  | nullV => simp
  | undef => simp

theorem isValidValue_numeric_iff_witness :
    isValidValue demoSpec "amount" (.num .posInf) = true ∧
      isValidValue demoSpec "amount" (.num .nan) = false := by
  constructor
  · exact (isValidValue_numeric_iff demoSpec "amount" (.num .posInf) (by decide)).mpr
      ⟨.posInf, rfl, rfl⟩
  · cases hv : isValidValue demoSpec "amount" (.num .nan) with
    | false => rfl
    | true =>
      obtain ⟨n, hn, hnan⟩ :=
        (isValidValue_numeric_iff demoSpec "amount" (.num .nan) (by decide)).mp hv
      injection hn with h
      subst h
      simp [JSNum.isNaN] at hnan

/-- Claim C9: for a parameter of Numeric kind whose first stored value is
the empty string, `get` returns the number `0` rather than absent (the
empty string converts to `0`, which is not `NaN`), even though the
canonical decimal string of `0` is `"0"`, not the empty string. -/
theorem numeric_get_empty_string (spec : Spec) (p : Params) (name : String)
    (hvd : lookupSpec spec name = some .num) (hget : paramsGet p name = some "") :
    tqGet spec p name = some (.num (.finite 0 0)) ∧
      jsNumberToString (.finite 0 0) = "0" := by
  refine ⟨?_, by decide⟩
  rw [tqGet_eq_bind spec p name _ hvd, hget, Option.some_bind]
  decide

theorem numeric_get_empty_string_witness :
    tqGet demoSpec [("amount", "")] "amount" = some (.num (.finite 0 0)) ∧
      jsNumberToString (.finite 0 0) = "0" :=
  numeric_get_empty_string demoSpec [("amount", "")] "amount" (by decide) (by decide)

/-- Claim C10: for a parameter of Numeric kind, `set` with `NaN` performs no
validation and stores the text `"NaN"`, and a subsequent `get` returns
absent because the stored text converts back to `NaN` and is rejected, so
`set` then `get` is not a round trip for `NaN` even though `NaN` has
numeric runtime type. -/
theorem set_nan_stores_NaN_get_absent (spec : Spec) (p : Params) (name : String)
    (hvd : lookupSpec spec name = some .num) :
    paramsGet (tqSet p name (.num .nan)) name = some "NaN" ∧
      tqGet spec (tqSet p name (.num .nan)) name = none := by
  constructor
  · rw [tqSet]
    exact paramsGet_set p name _
  · rw [tqGet_eq_bind spec _ name _ hvd, tqSet, paramsGet_set, Option.some_bind]
    decide

theorem set_nan_stores_NaN_get_absent_witness :
    paramsGet (tqSet [] "amount" (.num .nan)) "amount" = some "NaN" ∧
      tqGet demoSpec (tqSet [] "amount" (.num .nan)) "amount" = none :=
  set_nan_stores_NaN_get_absent demoSpec [] "amount" (by decide)

end TypedQuery
